import Mathlib

/-!
# Verification of the nearcast-agents cycle orchestrator and decision pipeline

Shallow embedding of the core of the `nearcast-agents` repository:
the decision validator (`validateActions` in `src/brain/brain.js`),
the batched decision demultiplexer (`thinkAll`), the per-agent wager
ledger (`memory.js`: `recordBet`, `resolveBet`, `getPendingBets`,
`syncFromChain`), and the resolution step of the cycle
(`Agent.checkResolutions`, `Orchestrator.cycle`).

JavaScript numbers are modelled as `ℚ` (the programs only perform
field arithmetic and comparisons on them); the value `NaN`, which can
arise from the `Number(...)` coercions in `validateActions`, is
modelled explicitly by `JsNum.nan`.  Market status strings are kept as
`String`, matching the source's comparisons against `"resolved"`,
`"voided"` and `"active"`.
-/

namespace Nearcast

/-- A JavaScript number after a `Number(...)` coercion: either a real
(rational) value or `NaN`. -/
inductive JsNum where
  | nan : JsNum
  | num : ℚ → JsNum
deriving DecidableEq, Repr

/-- A raw action as proposed by the LLM, after the field coercions at the
top of `validateActions` (`src/brain/brain.js`).  `none` in a field models
a `null`/`undefined` field (which skips coercion and fails the subsequent
checks); `other` models an action whose `type` is missing or unrecognized. -/
inductive RawAction where
  | bet (marketId outcome amount : Option JsNum) : RawAction
  | chat (marketId : Option JsNum) (message : Option String) : RawAction
  | reply (marketId : Option JsNum) (message : Option String) (replyTo : Option JsNum) : RawAction
  | other : RawAction
deriving DecidableEq, Repr

/-- A market as seen through the NearCast REST API (`getMarkets` /
`getMarket`): numeric id, status string, the winning outcome index once
resolved (`winning_outcome`), and the implied-probability vector the
orchestrator may attach (`m.odds`). -/
structure Market where
  id : ℚ
  status : String
  winning_outcome : Option ℚ
  odds : Option (List ℚ)
deriving DecidableEq, Repr

/-- Agent configuration fields consumed by the decision pipeline:
the agent's name (the key of the oracle response) and `maxBetNear`. -/
structure AgentConfig where
  name : String
  maxBetNear : Option ℚ
deriving DecidableEq, Repr

/-- The effective maximum wager `config.maxBetNear || 2` — JavaScript `||` falls back to `2` when the
field is absent or `0` (falsy). -/
def effMaxBet (config : AgentConfig) : ℚ :=
  match config.maxBetNear with
  | none => 2
  | some m => if m = 0 then 2 else m

/-- The set `new Set(markets.map(m => m.id))` built in `validateActions`. -/
def validMarketIds (markets : List Market) : List ℚ :=
  markets.map (·.id)

/-- The clamped bet amount: `if (a.amount > maxBet) a.amount = maxBet`. -/
def clampAmount (maxBet amount : ℚ) : ℚ :=
  if amount > maxBet then maxBet else amount

/-- Message truncation: `if (a.message.length > 500) a.message = a.message.slice(0, 500)`. -/
def truncateMsg (msg : String) : String :=
  if msg.length > 500 then (msg.toList.take 500).asString else msg

/-- One iteration of the `actions.filter(a => ...)` body of
`validateActions` (`src/brain/brain.js`), carrying the running
`totalBet` and the accepted actions so far.  Every rejection path of the
source returns the state unchanged; an accepted action is appended (with
its amount clamped / message truncated, as the source mutates in place). -/
def validateStep (ids : List ℚ) (maxBet balance : ℚ)
    (st : ℚ × List RawAction) : RawAction → ℚ × List RawAction
  | RawAction.bet (some (JsNum.num m)) (some (JsNum.num o)) (some (JsNum.num a)) =>
    if m ∈ ids ∧ 0 ≤ o ∧ 0 < a then
      let a2 := clampAmount maxBet a
      if st.1 + a2 > balance then st
      else (st.1 + a2,
        st.2 ++ [RawAction.bet (some (JsNum.num m)) (some (JsNum.num o)) (some (JsNum.num a2))])
    else st
  | RawAction.bet _ _ _ => st
  | RawAction.chat (some (JsNum.num m)) (some msg) =>
    if m ∈ ids ∧ msg ≠ "" then
      (st.1, st.2 ++ [RawAction.chat (some (JsNum.num m)) (some (truncateMsg msg))])
    else st
  | RawAction.chat _ _ => st
  | RawAction.reply (some (JsNum.num m)) (some msg) replyTo =>
    if m ∈ ids ∧ msg ≠ "" then
      (st.1, st.2 ++ [RawAction.reply (some (JsNum.num m)) (some (truncateMsg msg)) replyTo])
    else st
  | RawAction.reply _ _ _ => st
  | RawAction.other => st

/-- The decision validator `validateActions(actions, markets, balance, config)` from
`src/brain/brain.js`: filters and coerces a raw action list, clamping bet
amounts to `config.maxBetNear || 2` and enforcing the running per-agent
budget `totalBet + a.amount > balance → reject`. -/
def validateActions (actions : List RawAction) (markets : List Market)
    (balance : ℚ) (config : AgentConfig) : List RawAction :=
  (actions.foldl (validateStep (validMarketIds markets) (effMaxBet config) balance) (0, [])).2

/-- The amount carried by a validated `bet` action (`0` for non-bets). -/
def betAmount : RawAction → ℚ
  | RawAction.bet _ _ (some (JsNum.num a)) => a
  | _ => 0

/-- Sum of the `bet` amounts in an action list. -/
def betSum (l : List RawAction) : ℚ :=
  (l.map betAmount).sum

/-- The `result` column of the `bets` table (`memory.js`):
`'pending'` by default, set to a terminal value by `resolveBet`. -/
inductive BetResult where
  | pending | won | lost | voided
deriving DecidableEq, Repr

/-- A row of the `bets` table in the agent's SQLite memory (`memory.js`).
Timestamps are modelled as rationals (milliseconds). -/
structure BetRow where
  marketId : ℚ
  outcome : ℚ
  amountNear : ℚ
  oddsAtBet : Option ℚ
  reasoning : String
  result : BetResult
  pnlNear : ℚ
  createdAt : ℚ
  resolvedAt : Option ℚ
deriving DecidableEq, Repr

/-- The agent's wager ledger: the `bets` table, rows in insertion
(rowid) order. -/
structure Ledger where
  bets : List BetRow
deriving DecidableEq, Repr

/-- The append `recordBet(marketId, outcome, amountNear, odds, reasoning)`:
`INSERT INTO bets (...) VALUES (...)` with `result` defaulting to
`'pending'`, `pnl_near` to `0` and `created_at` to `datetime('now')`. -/
def recordBet (l : Ledger) (marketId outcome amountNear : ℚ)
    (odds : Option ℚ) (reasoning : String) (now : ℚ) : Ledger :=
  ⟨l.bets ++ [{ marketId := marketId, outcome := outcome, amountNear := amountNear,
                oddsAtBet := odds, reasoning := reasoning, result := BetResult.pending,
                pnlNear := 0, createdAt := now, resolvedAt := none }]⟩

/-- The resolution transition `resolveBet(marketId, result, pnl)`:
`UPDATE bets SET result = ?, pnl_near = ?, resolved_at = datetime('now')
WHERE market_id = ? AND result = 'pending'` — note the update applies to
every row matching the `WHERE` clause. -/
def resolveBet (l : Ledger) (marketId : ℚ) (result : BetResult) (pnl : ℚ)
    (now : ℚ) : Ledger :=
  ⟨l.bets.map fun b =>
    if b.marketId = marketId ∧ b.result = BetResult.pending then
      { b with result := result, pnlNear := pnl, resolvedAt := some now }
    else b⟩

/-- The query `getPendingBets()`: `SELECT * FROM bets WHERE result = 'pending'`. -/
def pendingBets (l : Ledger) : List BetRow :=
  l.bets.filter fun b => b.result = BetResult.pending

/-- An authoritative wager from the chain (`get_user_bets`): amounts in
yoctoNEAR, timestamps in nanoseconds, as consumed by `syncFromChain`. -/
structure ChainBet where
  marketId : ℚ
  outcome : ℚ
  amount : ℚ
  timestamp : ℚ
deriving DecidableEq, Repr

/-- A market as consumed by `syncFromChain`: status string, resolved
outcome, pool totals in yoctoNEAR, creation timestamp in nanoseconds. -/
structure ChainMarket where
  id : ℚ
  status : String
  resolvedOutcome : Option ℚ
  totalPool : ℚ
  outcomePools : List ℚ
  createdAt : ℚ
deriving DecidableEq, Repr

/-- JavaScript array indexing `arr[q]` with a numeric key: defined only
for a non-negative integer index inside the array, `undefined`
(here `none`) otherwise. -/
def jsIndex (l : List ℚ) (q : ℚ) : Option ℚ :=
  if q.den = 1 ∧ 0 ≤ q.num then l.get? q.num.toNat else none

/-- The `marketsById` object built at the top of `syncFromChain`: keyed
by `m.id`, a later entry with the same id overwrites an earlier one. -/
def marketsByIdFun (markets : List ChainMarket) (k : ℚ) : Option ChainMarket :=
  markets.reverse.find? fun m => decide (m.id = k)

/-- The per-wager body of the `syncFromChain` transaction (`memory.js`):
`none` when the wager is skipped (unknown market, or a timestamp
predating the market's creation), otherwise the row inserted, with
result and realized PnL computed from the resolved market's pools.
`bet.amount / 10^24` converts yoctoNEAR to NEAR; a missing
`outcomePools[bet.outcome]` entry makes `winPool` NaN in the source, for
which every comparison is false, so the PnL falls back to `0`. -/
def importChainBet (marketsById : ℚ → Option ChainMarket) (now : ℚ)
    (bet : ChainBet) : Option BetRow :=
  match marketsById bet.marketId with
  | none => none
  | some market =>
    if bet.timestamp < market.createdAt then none
    else
      let amountNear := bet.amount / 10 ^ 24
      let rp : BetResult × ℚ :=
        if market.status = "resolved" then
          if market.resolvedOutcome = some bet.outcome then
            let pnl :=
              match jsIndex market.outcomePools bet.outcome with
              | some wp =>
                if wp / 10 ^ 24 > 0 then
                  amountNear * (market.totalPool / 10 ^ 24) / (wp / 10 ^ 24) - amountNear
                else 0
              | none => 0
            (BetResult.won, pnl)
          else (BetResult.lost, -amountNear)
        else if market.status = "voided" then (BetResult.voided, 0)
        else (BetResult.pending, 0)
      some { marketId := bet.marketId, outcome := bet.outcome,
             amountNear := amountNear, oddsAtBet := none,
             reasoning := "synced from chain", result := rp.1, pnlNear := rp.2,
             createdAt := bet.timestamp / 10 ^ 6,
             resolvedAt := if rp.1 ≠ BetResult.pending then some now else none }

/-- The reconciliation `syncFromChain(chainBets, markets)` (`memory.js`): one-shot backfill.
Returns the ledger after the call together with the number of rows
inserted (the source's return value).  Performs the transactional bulk
insert only when the chain history is non-empty and the local `bets`
table holds zero rows. -/
def syncFromChain (l : Ledger) (chainBets : List ChainBet)
    (markets : List ChainMarket) (now : ℚ) : Ledger × Nat :=
  if chainBets = [] then (l, 0)
  else if l.bets.length > 0 then (l, 0)
  else
    let rows := chainBets.filterMap (importChainBet (marketsByIdFun markets) now)
    (⟨l.bets ++ rows⟩, rows.length)

/-- A mutating operation on the agent's ledger, with the wall-clock time
at which it runs (`datetime('now')`). -/
inductive LedgerOp where
  | record (marketId outcome amountNear : ℚ) (odds : Option ℚ) (reasoning : String) (now : ℚ)
  | resolve (marketId : ℚ) (result : BetResult) (pnl : ℚ) (now : ℚ)
  | sync (chainBets : List ChainBet) (markets : List ChainMarket) (now : ℚ)
deriving Repr

/-- Apply one ledger operation. -/
def applyOp (l : Ledger) : LedgerOp → Ledger
  | LedgerOp.record marketId outcome amountNear odds reasoning now =>
    recordBet l marketId outcome amountNear odds reasoning now
  | LedgerOp.resolve marketId result pnl now => resolveBet l marketId result pnl now
  | LedgerOp.sync chainBets markets now => (syncFromChain l chainBets markets now).1

/-- Apply a sequence of ledger operations in order. -/
def applyOps (l : Ledger) (ops : List LedgerOp) : Ledger :=
  ops.foldl applyOp l

/-- The per-wager resolution decision of `Agent.checkResolutions`
(`src/core/agent.js`): `none` when the market is unavailable, still
`"active"`, or has an unrecognized status (the wager stays pending);
otherwise the terminal result together with the recorded PnL —
`bet.amount_near * 1.5` on a win, `-bet.amount_near` on a loss, `0` on a
voided market. -/
def liveResolveOutcome (market : Market) (bet : BetRow) : Option (BetResult × ℚ) :=
  if market.status = "active" then none
  else if market.status = "resolved" then
    if market.winning_outcome = some bet.outcome then
      some (BetResult.won, bet.amountNear * (3 / 2))
    else some (BetResult.lost, -bet.amountNear)
  else if market.status = "voided" then some (BetResult.voided, 0)
  else none

/-- One iteration of the `for (const bet of pending)` loop of
`checkResolutions`: look the market up (`none` also covers the
`catch`-swallowed fetch failure) and, when a terminal status is seen,
call `memory.resolveBet`. -/
def checkResolutionsStep (getMarket : ℚ → Option Market) (now : ℚ)
    (acc : Ledger) (bet : BetRow) : Ledger :=
  match getMarket bet.marketId with
  | none => acc
  | some market =>
    match liveResolveOutcome market bet with
    | none => acc
    | some (result, pnl) => resolveBet acc bet.marketId result pnl now

/-- The resolution pass `checkResolutions()`: iterates over the pending list read at entry
(`memory.getPendingBets()`) and resolves each wager whose market has
left the `"active"` status. -/
def checkResolutions (getMarket : ℚ → Option Market) (now : ℚ) (l : Ledger) : Ledger :=
  (pendingBets l).foldl (checkResolutionsStep getMarket now) l

/-- Steps 4 and 6 of `Orchestrator.cycle`: step 4 runs
`agent.checkResolutions()` for the agent, after which step 6 reads
`agent.memory.getPendingBets()` as the `myBets` context fed to
`thinkAll`.  Returns the ledger after step 4 together with that decision
input. -/
def orchestratorCycleSteps46 (getMarket : ℚ → Option Market) (now : ℚ)
    (l : Ledger) : Ledger × List BetRow :=
  let l2 := checkResolutions getMarket now l
  (l2, pendingBets l2)

/-- Steps 4 and 5 of the legacy `Agent.cycle` (`src/core/agent.js`
lines 115–120): `myBets = memory.getPendingBets()` is read FIRST
(step 4), and `checkResolutions` runs afterwards (step 5).  Returns the
`myBets` list fed to `think` together with the ledger after step 5. -/
def agentCycleSteps45 (getMarket : ℚ → Option Market) (now : ℚ)
    (l : Ledger) : List BetRow × Ledger :=
  let myBets := pendingBets l
  let l2 := checkResolutions getMarket now l
  (myBets, l2)

/-- One per-agent entry of the parsed oracle response consumed by
`thinkAll`: both fields may be absent (`agentResult.actions || []`,
`agentResult.reasoning || ""`). -/
structure OracleEntry where
  actions : Option (List RawAction)
  reasoning : Option String
deriving DecidableEq, Repr

/-- The per-agent context assembled by `Orchestrator.cycle` step 6 and
consumed by `thinkAll`'s demultiplexing loop. -/
structure AgentCtx where
  config : AgentConfig
  balance : ℚ
deriving DecidableEq, Repr

/-- One value of the object returned by `thinkAll`: the validated action
list and the reasoning string for one agent. -/
structure ThinkResult where
  actions : List RawAction
  reasoning : String
deriving DecidableEq, Repr

/-- Lookup in a JavaScript object built by successive keyed assignments:
the last assignment to a key wins. -/
def jsLookup {α : Type} (l : List (String × α)) (k : String) : Option α :=
  (l.reverse.find? fun p => decide (p.1 = k)).map (·.2)

/-- The demultiplexing loop of `thinkAll` (`src/brain/brain.js`): for
every configured agent, take `result[name] || {}`, default the raw
action list and the reasoning, and run the raw actions through
`validateActions` with that agent's own balance and config.  The
returned association list models the `allActions` object (keyed
assignments, in agent order). -/
def thinkAllDemux (result : String → Option OracleEntry)
    (agents : List AgentCtx) (markets : List Market) :
    List (String × ThinkResult) :=
  agents.map fun a =>
    let entry := result a.config.name
    let rawActions := (entry.bind (·.actions)).getD []
    let reasoning := (entry.bind (·.reasoning)).getD ""
    (a.config.name,
     { actions := validateActions rawActions markets a.balance a.config,
       reasoning := reasoning })

/-! ## Concrete instances used by witnesses and counterexamples -/

/-- An active market with id 5. -/
def mkt5 : Market := ⟨5, "active", none, none⟩

/-- Agent configuration with maximum wager 2 NEAR. -/
def cfgA : AgentConfig := ⟨"A", some 2⟩

/-- A second agent configuration. -/
def cfgB : AgentConfig := ⟨"B", some 2⟩

/-- A well-formed raw bet proposal of the given amount on market 5,
outcome 0. -/
def betAct (q : ℚ) : RawAction :=
  RawAction.bet (some (JsNum.num 5)) (some (JsNum.num 0)) (some (JsNum.num q))

/-- A pending wager row on market 1. -/
def pendRow1 : BetRow := ⟨1, 0, 2, none, "first", BetResult.pending, 0, 0, none⟩

/-- A second, younger pending wager row on the same market 1. -/
def pendRow1b : BetRow := ⟨1, 0, 3, none, "second", BetResult.pending, 0, 1, none⟩

/-- A ledger holding two pending wagers on the same market. -/
def twoPendingLedger : Ledger := ⟨[pendRow1, pendRow1b]⟩

/-- A wager row already resolved as won. -/
def wonRow : BetRow := ⟨1, 0, 2, none, "done", BetResult.won, 3, 0, some 5⟩

/-- A ledger holding one resolved wager. -/
def wonLedger : Ledger := ⟨[wonRow]⟩

/-- A chain wager of 1 NEAR (in yoctoNEAR) on market 1. -/
def cbetSmall : ChainBet := ⟨1, 0, 10 ^ 24, 5⟩

/-- A chain wager of 10 NEAR (in yoctoNEAR) on market 1, outcome 0. -/
def cbet0 : ChainBet := ⟨1, 0, 10 * 10 ^ 24, 5⟩

/-- A resolved chain market with total pool 100 NEAR and winning-outcome
pool 40 NEAR. -/
def cmkt0 : ChainMarket := ⟨1, "resolved", some 0, 100 * 10 ^ 24, [40 * 10 ^ 24, 60 * 10 ^ 24], 0⟩

/-- An active market with id 2. -/
def mktActive2 : Market := ⟨2, "active", none, none⟩

/-- A market lookup knowing only the active market 2. -/
def lookupActive2 : ℚ → Option Market := fun q => if q = 2 then some mktActive2 else none

/-- A pending wager row on market 2. -/
def pendRow2 : BetRow := ⟨2, 0, 1, none, "", BetResult.pending, 0, 0, none⟩

/-- A ledger holding one pending wager on market 2. -/
def pendingLedger2 : Ledger := ⟨[pendRow2]⟩

/-- A resolved market with id 9 whose winning outcome is 0. -/
def mktRes9 : Market := ⟨9, "resolved", some 0, none⟩

/-- A market lookup knowing only the resolved market 9. -/
def lookupRes9 : ℚ → Option Market := fun q => if q = 9 then some mktRes9 else none

/-- A pending wager row on market 9, outcome 0. -/
def pendRow9 : BetRow := ⟨9, 0, 1, none, "", BetResult.pending, 0, 0, none⟩

/-- A ledger holding one pending wager on market 9. -/
def pendingLedger9 : Ledger := ⟨[pendRow9]⟩

/-- The decision context of agent A. -/
def ctxA : AgentCtx := ⟨cfgA, 4⟩

/-- The decision context of agent B. -/
def ctxB : AgentCtx := ⟨cfgB, 4⟩

/-- An oracle response entry proposing one bet for agent A. -/
def entryA : OracleEntry := ⟨some [betAct (3 / 2)], some "thinking"⟩

/-- An oracle response carrying an entry for agent A only. -/
def oracleRes0 : String → Option OracleEntry := fun n => if n = "A" then some entryA else none

/-! ## Helper lemmas about the decision validator -/

/-- A raw action built with the `bet` constructor. -/
def isBetAction : RawAction → Prop
  | RawAction.bet _ _ _ => True
  | _ => False

theorem betSum_append (l1 l2 : List RawAction) :
    betSum (l1 ++ l2) = betSum l1 + betSum l2 := by
  simp [betSum]

theorem clampAmount_le (maxBet a : ℚ) : clampAmount maxBet a ≤ maxBet ⊔ a := by
  unfold clampAmount
  split
  · exact le_sup_left
  · exact le_sup_right

theorem clampAmount_le_max (maxBet a : ℚ) : clampAmount maxBet a ≤ maxBet := by
  unfold clampAmount
  split
  · exact le_rfl
  · exact le_of_not_lt (by assumption)

/-- Case analysis on one validator iteration: either the action is
rejected (state unchanged), or an action is appended — a `bet` whose
amount is clamped and fits the running budget, or a `chat`/`reply`
carrying no bet amount. -/
theorem validateStep_shape (ids : List ℚ) (maxBet bal : ℚ)
    (st : ℚ × List RawAction) (a : RawAction) :
    validateStep ids maxBet bal st a = st ∨
    ∃ x, validateStep ids maxBet bal st a = (st.1 + betAmount x, st.2 ++ [x]) ∧
      ((∃ m o q, x = RawAction.bet (some (JsNum.num m)) (some (JsNum.num o)) (some (JsNum.num q)) ∧
          q ≤ maxBet ∧ st.1 + q ≤ bal) ∨
        (¬ isBetAction x ∧ betAmount x = 0)) := by
  cases a with
  | other => exact Or.inl rfl
  | bet mid out amt =>
    rcases mid with _ | mj
    · exact Or.inl rfl
    rcases mj with _ | m
    · exact Or.inl rfl
    rcases out with _ | oj
    · exact Or.inl rfl
    rcases oj with _ | o
    · exact Or.inl rfl
    rcases amt with _ | aj
    · exact Or.inl rfl
    rcases aj with _ | q
    · exact Or.inl rfl
    by_cases hcond : m ∈ ids ∧ 0 ≤ o ∧ 0 < q
    · by_cases hb : st.1 + clampAmount maxBet q > bal
      · left
        simp [validateStep, hcond, hb]
      · right
        refine ⟨RawAction.bet (some (JsNum.num m)) (some (JsNum.num o))
          (some (JsNum.num (clampAmount maxBet q))), ?_, Or.inl ?_⟩
        · simp [validateStep, hcond, hb, betAmount]
        · exact ⟨m, o, clampAmount maxBet q, rfl, clampAmount_le_max maxBet q,
            le_of_not_lt hb⟩
    · left
      simp [validateStep, hcond]
  | chat mid msg =>
    rcases mid with _ | mj
    · exact Or.inl rfl
    rcases mj with _ | m
    · exact Or.inl rfl
    rcases msg with _ | s
    · exact Or.inl rfl
    by_cases hcond : m ∈ ids ∧ s ≠ ""
    · right
      refine ⟨RawAction.chat (some (JsNum.num m)) (some (truncateMsg s)), ?_, Or.inr ?_⟩
      · simp [validateStep, hcond, betAmount]
      · exact ⟨fun h => h.elim, rfl⟩
    · left
      simp [validateStep, hcond]
  | reply mid msg replyTo =>
    rcases mid with _ | mj
    · exact Or.inl rfl
    rcases mj with _ | m
    · exact Or.inl rfl
    rcases msg with _ | s
    · exact Or.inl rfl
    by_cases hcond : m ∈ ids ∧ s ≠ ""
    · right
      refine ⟨RawAction.reply (some (JsNum.num m)) (some (truncateMsg s)) replyTo, ?_, Or.inr ?_⟩
      · simp [validateStep, hcond, betAmount]
      · exact ⟨fun h => h.elim, rfl⟩
    · left
      simp [validateStep, hcond]

/-- The budget invariant of the validator fold: the accumulator equals
the sum of accepted bet amounts and never exceeds the balance. -/
theorem validate_fold_inv (ids : List ℚ) (maxBet bal : ℚ) :
    ∀ (as : List RawAction) (st : ℚ × List RawAction),
      betSum st.2 = st.1 → st.1 ≤ bal →
      betSum (as.foldl (validateStep ids maxBet bal) st).2 =
          (as.foldl (validateStep ids maxBet bal) st).1 ∧
        (as.foldl (validateStep ids maxBet bal) st).1 ≤ bal := by
  intro as
  induction as with
  | nil => intro st h1 h2; exact ⟨h1, h2⟩
  | cons a rest ih =>
    intro st h1 h2
    rw [List.foldl_cons]
    rcases validateStep_shape ids maxBet bal st a with heq | ⟨x, heq, hx⟩
    · rw [heq]
      exact ih st h1 h2
    · rw [heq]
      apply ih
      · rw [betSum_append]
        simp only [betSum] at h1 ⊢
        simp [h1]
      · rcases hx with ⟨m, o, q, hxeq, _, hbal⟩ | ⟨_, h0⟩
        · subst hxeq
          simpa [betAmount] using hbal
        · rw [h0, add_zero]
          exact h2

/-! ## Claim C1: validated bet amounts never exceed the balance -/

/-- C1: for every agent configuration, (non-negative) balance, market set
and raw action list, the sum of the amounts of the `bet` actions returned
by `validateActions` is at most the balance passed into validation: a bet
whose clamped amount would push the running per-agent total over the
balance is rejected, earlier actions in the list winning. -/
theorem validated_bets_within_balance (actions : List RawAction)
    (markets : List Market) (balance : ℚ) (config : AgentConfig)
    (h : 0 ≤ balance) :
    betSum (validateActions actions markets balance config) ≤ balance := by
  have hinv := validate_fold_inv (validMarketIds markets) (effMaxBet config) balance
    actions (0, []) (by simp [betSum]) h
  unfold validateActions
  rw [hinv.1]
  exact hinv.2

/-- Witness for C1 at a concrete input: balance 4, one proposed bet of
1.5 NEAR on market 5. -/
theorem validated_bets_within_balance_witness :
    (0 : ℚ) ≤ 4 ∧ betSum (validateActions [betAct (3 / 2)] [mkt5] 4 cfgA) ≤ 4 :=
  ⟨by norm_num, validated_bets_within_balance [betAct (3 / 2)] [mkt5] 4 cfgA (by norm_num)⟩

/-! ## Claim C9: bet amounts are clamped to the configured maximum -/

/-- Every bet in the validator's output is bounded by the effective
configured maximum; preserved along the fold. -/
theorem validate_fold_betsLe (ids : List ℚ) (maxBet bal : ℚ) :
    ∀ (as : List RawAction) (st : ℚ × List RawAction),
      (∀ m o q, RawAction.bet (some (JsNum.num m)) (some (JsNum.num o)) (some (JsNum.num q)) ∈ st.2 →
        q ≤ maxBet) →
      ∀ m o q, RawAction.bet (some (JsNum.num m)) (some (JsNum.num o)) (some (JsNum.num q)) ∈
          (as.foldl (validateStep ids maxBet bal) st).2 →
        q ≤ maxBet := by
  intro as
  induction as with
  | nil => intro st hst; exact hst
  | cons a rest ih =>
    intro st hst m o q
    rw [List.foldl_cons]
    rcases validateStep_shape ids maxBet bal st a with heq | ⟨x, heq, hx⟩
    · rw [heq]
      exact ih st hst m o q
    · rw [heq]
      apply ih
      intro m' o' q' hmem
      rcases List.mem_append.mp hmem with hold | hnew
      · exact hst m' o' q' hold
      · rcases hx with ⟨mb, ob, qb, hxeq, hqb, _⟩ | ⟨hnb, _⟩
        · rw [List.mem_singleton, hxeq] at hnew
          simp only [RawAction.bet.injEq, Option.some.injEq, JsNum.num.injEq] at hnew
          rw [hnew.2.2]
          exact hqb
        · rw [List.mem_singleton] at hnew
          subst hnew
          exact absurd trivial hnb

/-- C9: every `bet` action accepted by the decision validator carries an
amount at most the agent's configured maximum wager (`maxBetNear`, with
the source's `|| 2` fallback); moreover a raw amount exceeding the
maximum is clamped down to the maximum rather than causing rejection of
the action (here: a single over-sized proposal that fits the balance
after clamping is accepted with the clamped amount). -/
theorem bet_amounts_clamped_to_max :
    (∀ (actions : List RawAction) (markets : List Market) (balance : ℚ) (config : AgentConfig)
        (m o q : ℚ),
      RawAction.bet (some (JsNum.num m)) (some (JsNum.num o)) (some (JsNum.num q)) ∈
          validateActions actions markets balance config →
      q ≤ effMaxBet config)
  ∧ (∀ (markets : List Market) (balance : ℚ) (config : AgentConfig) (m o q : ℚ),
      m ∈ validMarketIds markets → 0 ≤ o → 0 < q → effMaxBet config < q →
      effMaxBet config ≤ balance →
      validateActions [RawAction.bet (some (JsNum.num m)) (some (JsNum.num o)) (some (JsNum.num q))]
          markets balance config =
        [RawAction.bet (some (JsNum.num m)) (some (JsNum.num o))
          (some (JsNum.num (effMaxBet config)))]) := by
  constructor
  · intro actions markets balance config m o q hmem
    exact validate_fold_betsLe (validMarketIds markets) (effMaxBet config) balance actions
      (0, []) (by intro m' o' q' h; simp at h) m o q hmem
  · intro markets balance config m o q hm ho hq hclamp hbal
    unfold validateActions
    rw [List.foldl_cons, List.foldl_nil]
    simp only [validateStep]
    rw [if_pos ⟨hm, ho, hq⟩]
    simp only [clampAmount, if_pos hclamp]
    rw [if_neg (not_lt.mpr (by simpa using hbal))]
    simp

/-- Witness for C9: a proposed bet of 10 NEAR under a configured maximum
of 2 is accepted with amount clamped to 2 (which is at most the
configured maximum). -/
theorem bet_amounts_clamped_to_max_witness :
    validateActions [betAct 10] [mkt5] 4 cfgA = [betAct (effMaxBet cfgA)] ∧
    (2 : ℚ) ≤ effMaxBet cfgA := by
  have hmax : effMaxBet cfgA = 2 := by simp [effMaxBet, cfgA]
  have hb := bet_amounts_clamped_to_max.2 [mkt5] 4 cfgA 5 0 10
    (by simp [validMarketIds, mkt5]) (by norm_num) (by norm_num)
    (by rw [hmax]; norm_num) (by rw [hmax]; norm_num)
  have hmem : RawAction.bet (some (JsNum.num 5)) (some (JsNum.num 0)) (some (JsNum.num 2)) ∈
      validateActions [betAct 10] [mkt5] 4 cfgA := by
    simp only [betAct]
    rw [hb, hmax]
    exact List.mem_singleton.mpr rfl
  refine ⟨?_, ?_⟩
  · simpa [betAct] using hb
  · have h2 := bet_amounts_clamped_to_max.1 [betAct 10] [mkt5] 4 cfgA 5 0 2 hmem
    exact h2

/-! ## Claim C3: the worked validation example of the spec -/

/-- Evaluation of the validator on the spec's worked example: balance 4,
maximum 2, proposals of 1.5, 3.0 and 1.0 NEAR on market 5. -/
theorem validateActions_example_eval :
    validateActions [betAct (3 / 2), betAct 3, betAct 1] [mkt5] 4 cfgA =
      [betAct (3 / 2), betAct 2] := by
  simp only [validateActions, validateStep, validMarketIds, effMaxBet, clampAmount, mkt5, cfgA,
    betAct, List.foldl_cons, List.foldl_nil, List.map_cons, List.map_nil, List.mem_cons,
    List.not_mem_nil]
  norm_num

/-- Counterexample to C3 as stated: the validator does NOT return
`[bet 1.5, bet 1.0]` on the spec's example input. -/
theorem validateActions_example_not_spec :
    validateActions [betAct (3 / 2), betAct 3, betAct 1] [mkt5] 4 cfgA ≠
      [betAct (3 / 2), betAct 1] := by
  rw [validateActions_example_eval]
  simp only [betAct, ne_eq, List.cons.injEq, RawAction.bet.injEq, Option.some.injEq,
    JsNum.num.injEq]
  norm_num

/-- C3 amended: on the example input the validator returns
`[bet 1.5, bet 2.0]` — the second proposal is clamped to 2.0 and
accepted (1.5 + 2.0 = 3.5 ≤ 4.0), and the third is rejected
(3.5 + 1.0 = 4.5 > 4.0). -/
theorem validateActions_example_amended :
    validateActions [betAct (3 / 2), betAct 3, betAct 1] [mkt5] 4 cfgA =
      [betAct (3 / 2), betAct 2] :=
  validateActions_example_eval

/-! ## Helper lemmas about the ledger -/

/-- Row-wise description of `resolveBet`: each row is updated exactly
when it matches the market id and is still pending; all other rows are
untouched. -/
theorem resolveBet_row_eq (l : Ledger) (marketId : ℚ) (result : BetResult)
    (pnl now : ℚ) (i : Nat) :
    (resolveBet l marketId result pnl now).bets[i]? =
      (l.bets[i]?).map (fun b =>
        if b.marketId = marketId ∧ b.result = BetResult.pending then
          { b with result := result, pnlNear := pnl, resolvedAt := some now }
        else b) := by
  simp [resolveBet, List.getElem?_map]

/-- Row-wise facts about `resolveBet` needed downstream: market id is
preserved, non-pending rows are untouched, a matching pending row gets
the new result, and a row that is still pending afterwards was untouched
(when the new result is not `pending`). -/
theorem resolveBet_row (l : Ledger) (marketId : ℚ) (result : BetResult)
    (pnl now : ℚ) (i : Nat) (b : BetRow) (hb : l.bets[i]? = some b) :
    ∃ b', (resolveBet l marketId result pnl now).bets[i]? = some b' ∧
      b'.marketId = b.marketId ∧
      (b.result ≠ BetResult.pending → b' = b) ∧
      (b.marketId = marketId → b.result = BetResult.pending → b'.result = result) ∧
      (result ≠ BetResult.pending → b'.result = BetResult.pending → b' = b) := by
  rw [resolveBet_row_eq, hb]
  by_cases hc : b.marketId = marketId ∧ b.result = BetResult.pending
  · refine ⟨{ b with result := result, pnlNear := pnl, resolvedAt := some now },
      by simp [hc], rfl, fun hnp => absurd hc.2 hnp, fun _ _ => rfl, fun hr hp => absurd hp hr⟩
  · refine ⟨b, by simp [hc], rfl, fun _ => rfl, ?_, fun _ _ => rfl⟩
    intro h1 h2
    exact absurd ⟨h1, h2⟩ hc

/-- The length of the `bets` table is unchanged by `resolveBet`. -/
theorem resolveBet_length (l : Ledger) (marketId : ℚ) (result : BetResult)
    (pnl now : ℚ) :
    (resolveBet l marketId result pnl now).bets.length = l.bets.length := by
  simp [resolveBet]

/-! ## Claim C2: resolution transitions every pending wager of the market -/

/-- Counterexample to C2: on a ledger holding TWO pending wagers for
market 1, `resolveBet` transitions both of them, not only the single
oldest pending record. -/
theorem resolveBet_hits_all_pending :
    ((resolveBet twoPendingLedger 1 BetResult.won 5 99).bets.map (fun b => b.result)) =
      [BetResult.won, BetResult.won] := by
  simp [resolveBet, twoPendingLedger, pendRow1, pendRow1b]

/-- C2 amended: `resolveBet(opportunityId, result, pnl)` transitions
EVERY pending wager for that opportunity to the terminal result (with the
given pnl and a resolution timestamp), and leaves every other row —
non-pending rows and rows of other opportunities — unchanged. -/
theorem resolveBet_rows_characterized (l : Ledger) (marketId : ℚ)
    (result : BetResult) (pnl now : ℚ) (i : Nat) :
    (resolveBet l marketId result pnl now).bets[i]? =
      (l.bets[i]?).map (fun b =>
        if b.marketId = marketId ∧ b.result = BetResult.pending then
          { b with result := result, pnlNear := pnl, resolvedAt := some now }
        else b) :=
  resolveBet_row_eq l marketId result pnl now i

/-! ## Claim C5: reconciliation is at-most-once -/

/-- C5: `syncFromChain` performs no write against a non-empty ledger —
it returns the ledger unchanged with `0` rows synced.  In particular a
second call after a successful first backfill (which leaves the ledger
non-empty) is a no-op, and records are only ever inserted into a ledger
holding zero rows. -/
theorem syncFromChain_noop_on_nonempty (l : Ledger) (chainBets : List ChainBet)
    (markets : List ChainMarket) (now : ℚ) (h : l.bets ≠ []) :
    syncFromChain l chainBets markets now = (l, 0) := by
  unfold syncFromChain
  by_cases hc : chainBets = []
  · rw [if_pos hc]
  · rw [if_neg hc, if_pos (List.length_pos.mpr h)]

/-- Witness for C5: syncing a one-row ledger against a non-trivial chain
history changes nothing. -/
theorem syncFromChain_noop_on_nonempty_witness :
    syncFromChain wonLedger [cbetSmall] [cmkt0] 9 = (wonLedger, 0) :=
  syncFromChain_noop_on_nonempty wonLedger [cbetSmall] [cmkt0] 9
    (by simp [wonLedger])

/-! ## Claim C4: terminal wager rows are never altered -/

/-- Any single ledger operation leaves a non-pending (terminal) row
exactly as it was. -/
theorem applyOp_preserves_terminal (l : Ledger) (op : LedgerOp) (i : Nat)
    (b : BetRow) (hb : l.bets[i]? = some b) (hr : b.result ≠ BetResult.pending) :
    (applyOp l op).bets[i]? = some b := by
  cases op with
  | record marketId outcome amountNear odds reasoning now =>
    have hi : i < l.bets.length := (List.getElem?_eq_some.mp hb).1
    simp only [applyOp, recordBet]
    rw [List.getElem?_append, if_pos hi]
    exact hb
  | resolve marketId result pnl now =>
    simp only [applyOp]
    rw [resolveBet_row_eq, hb]
    simp [hr]
  | sync chainBets markets now =>
    simp only [applyOp]
    by_cases hc : chainBets = []
    · rw [syncFromChain, if_pos hc]
      exact hb
    · have hlen : 0 < l.bets.length := by
        rcases List.getElem?_eq_some.mp hb with ⟨hi, _⟩
        omega
      rw [syncFromChain, if_neg hc, if_pos hlen]
      exact hb

/-- C4: a wager record's lifecycle never regresses — for every sequence
of ledger operations (`recordBet`, `resolveBet`, `syncFromChain`), once a
row's result is `won`, `lost` or `voided`, the row (its result, pnl and
resolution timestamp included) is never changed again. -/
theorem terminal_rows_never_regress (ops : List LedgerOp) (l : Ledger) (i : Nat)
    (b : BetRow) (hb : l.bets[i]? = some b) (hr : b.result ≠ BetResult.pending) :
    (applyOps l ops).bets[i]? = some b := by
  induction ops generalizing l with
  | nil => exact hb
  | cons op rest ih =>
    rw [applyOps, List.foldl_cons]
    exact ih (applyOp l op) (applyOp_preserves_terminal l op i b hb hr)

/-- Witness for C4: a won row survives a later resolution call and a
later recorded wager untouched. -/
theorem terminal_rows_never_regress_witness :
    (applyOps wonLedger [LedgerOp.resolve 1 BetResult.lost (-2) 9,
      LedgerOp.record 1 0 1 none "again" 10]).bets[0]? = some wonRow :=
  terminal_rows_never_regress _ wonLedger 0 wonRow (by simp [wonLedger])
    (by simp [wonRow])

/-! ## Claim C6: reconciliation PnL formula -/

/-- C6: during reconciliation, for every authoritative wager whose
opportunity is known and not orphaned, the imported row carries — win:
`amount * totalPool / winningOutcomePool - amount` (in NEAR, i.e. after
the yoctoNEAR division), `0` if the winning pool share is `0`; loss:
`-amount`; voided: `0`; any other (unresolved) status: a `pending` row
with no resolution timestamp. -/
theorem sync_pnl_formula (marketsById : ℚ → Option ChainMarket) (now : ℚ)
    (bet : ChainBet) (market : ChainMarket)
    (hm : marketsById bet.marketId = some market)
    (hts : ¬ bet.timestamp < market.createdAt) :
    (∀ wp : ℚ, market.status = "resolved" → market.resolvedOutcome = some bet.outcome →
      jsIndex market.outcomePools bet.outcome = some wp → 0 < wp →
      importChainBet marketsById now bet = some
        { marketId := bet.marketId, outcome := bet.outcome,
          amountNear := bet.amount / 10 ^ 24, oddsAtBet := none,
          reasoning := "synced from chain", result := BetResult.won,
          pnlNear := (bet.amount / 10 ^ 24) * (market.totalPool / 10 ^ 24) / (wp / 10 ^ 24)
            - bet.amount / 10 ^ 24,
          createdAt := bet.timestamp / 10 ^ 6, resolvedAt := some now })
  ∧ (∀ wp : ℚ, market.status = "resolved" → market.resolvedOutcome = some bet.outcome →
      jsIndex market.outcomePools bet.outcome = some wp → wp = 0 →
      importChainBet marketsById now bet = some
        { marketId := bet.marketId, outcome := bet.outcome,
          amountNear := bet.amount / 10 ^ 24, oddsAtBet := none,
          reasoning := "synced from chain", result := BetResult.won, pnlNear := 0,
          createdAt := bet.timestamp / 10 ^ 6, resolvedAt := some now })
  ∧ (market.status = "resolved" → market.resolvedOutcome ≠ some bet.outcome →
      importChainBet marketsById now bet = some
        { marketId := bet.marketId, outcome := bet.outcome,
          amountNear := bet.amount / 10 ^ 24, oddsAtBet := none,
          reasoning := "synced from chain", result := BetResult.lost,
          pnlNear := -(bet.amount / 10 ^ 24),
          createdAt := bet.timestamp / 10 ^ 6, resolvedAt := some now })
  ∧ (market.status = "voided" →
      importChainBet marketsById now bet = some
        { marketId := bet.marketId, outcome := bet.outcome,
          amountNear := bet.amount / 10 ^ 24, oddsAtBet := none,
          reasoning := "synced from chain", result := BetResult.voided, pnlNear := 0,
          createdAt := bet.timestamp / 10 ^ 6, resolvedAt := some now })
  ∧ (market.status ≠ "resolved" → market.status ≠ "voided" →
      importChainBet marketsById now bet = some
        { marketId := bet.marketId, outcome := bet.outcome,
          amountNear := bet.amount / 10 ^ 24, oddsAtBet := none,
          reasoning := "synced from chain", result := BetResult.pending, pnlNear := 0,
          createdAt := bet.timestamp / 10 ^ 6, resolvedAt := none }) := by
  refine ⟨?_, ?_, ?_, ?_, ?_⟩
  · intro wp hst hwin hidx hwp
    have hpos : (0 : ℚ) < wp / 10 ^ 24 := by positivity
    simp [importChainBet, hm, hts, hst, hwin, hidx, hpos]
  · intro wp hst hwin hidx hwp
    subst hwp
    simp [importChainBet, hm, hts, hst, hwin, hidx]
  · intro hst hwin
    simp [importChainBet, hm, hts, hst, hwin]
  · intro hst
    have : market.status ≠ "resolved" := by rw [hst]; simp
    simp [importChainBet, hm, hts, hst, this]
  · intro h1 h2
    simp [importChainBet, hm, hts, h1, h2]

/-- Witness for C6: total pool 100 NEAR, winning-outcome pool 40 NEAR,
winning wager of 10 NEAR → realized PnL 15 NEAR. -/
theorem sync_pnl_formula_witness :
    (importChainBet (marketsByIdFun [cmkt0]) 7 cbet0).map (fun r => (r.result, r.pnlNear)) =
      some (BetResult.won, 15) := by
  have hm : marketsByIdFun [cmkt0] cbet0.marketId = some cmkt0 := by
    simp [marketsByIdFun, cmkt0, cbet0]
  have hts : ¬ cbet0.timestamp < cmkt0.createdAt := by
    simp [cbet0, cmkt0]
  have hidx : jsIndex cmkt0.outcomePools cbet0.outcome = some (40 * 10 ^ 24) := by
    simp [jsIndex, cmkt0, cbet0]
  have h := (sync_pnl_formula (marketsByIdFun [cmkt0]) 7 cbet0 cmkt0 hm hts).1
    (40 * 10 ^ 24) (by simp [cmkt0]) (by simp [cmkt0, cbet0]) hidx (by positivity)
  rw [h]
  simp [cbet0, cmkt0]
  norm_num

/-! ## Claim C10: live resolution uses a fixed PnL formula -/

/-- C10: when a pending wager is resolved during a live cycle
(`checkResolutions`), the recorded PnL is the fixed formula
`amount * 1.5` on a win and `-amount` on a loss, and `0` on a voided
market — independent of the market's pool shares or odds (any two
markets agreeing on status and winning outcome resolve identically). -/
theorem live_resolution_fixed_formula (market : Market) (bet : BetRow) :
    (market.status = "resolved" →
      liveResolveOutcome market bet =
        some (if market.winning_outcome = some bet.outcome
              then (BetResult.won, bet.amountNear * (3 / 2))
              else (BetResult.lost, -bet.amountNear)))
  ∧ (market.status = "voided" →
      liveResolveOutcome market bet = some (BetResult.voided, 0))
  ∧ (∀ market' : Market, market'.status = market.status →
      market'.winning_outcome = market.winning_outcome →
      liveResolveOutcome market' bet = liveResolveOutcome market bet) := by
  refine ⟨?_, ?_, ?_⟩
  · intro hst
    simp only [liveResolveOutcome, hst]
    norm_num
    split <;> simp
  · intro hst
    simp [liveResolveOutcome, hst]
  · intro market' h1 h2
    simp only [liveResolveOutcome, h1, h2]

/-- Witness for C10: a winning 1-NEAR wager on the resolved market 9 is
recorded with PnL `1 * 1.5 = 1.5`, regardless of the market's pools. -/
theorem live_resolution_fixed_formula_witness :
    liveResolveOutcome mktRes9 pendRow9 = some (BetResult.won, 3 / 2) := by
  have h := (live_resolution_fixed_formula mktRes9 pendRow9).1 rfl
  rw [h]
  simp [mktRes9, pendRow9]

/-! ## Helper lemmas about checkResolutions -/

/-- A live resolution decision never yields `pending`. -/
theorem liveResolveOutcome_ne_pending (market : Market) (bet : BetRow)
    (res : BetResult) (pnl : ℚ)
    (h : liveResolveOutcome market bet = some (res, pnl)) :
    res ≠ BetResult.pending := by
  simp only [liveResolveOutcome] at h
  split_ifs at h <;>
    first
      | exact Option.noConfusion h
      | (injection h with h1
         injection h1 with h2 h3
         subst h2
         decide)

/-- A market whose status is terminal always produces a resolution
decision. -/
theorem liveResolveOutcome_terminal_isSome (market : Market) (bet : BetRow)
    (h : market.status = "resolved" ∨ market.status = "voided") :
    ∃ rp, liveResolveOutcome market bet = some rp := by
  rcases h with h | h
  · by_cases hwin : market.winning_outcome = some bet.outcome
    · exact ⟨(BetResult.won, bet.amountNear * (3 / 2)),
        by simp [liveResolveOutcome, h, hwin]⟩
    · exact ⟨(BetResult.lost, -bet.amountNear),
        by simp [liveResolveOutcome, h, hwin]⟩
  · exact ⟨(BetResult.voided, 0), by simp [liveResolveOutcome, h]⟩

/-- Row-wise behaviour of one `checkResolutions` iteration. -/
theorem checkResolutionsStep_row (g : ℚ → Option Market) (now : ℚ)
    (acc : Ledger) (bet : BetRow) (i : Nat) (b : BetRow)
    (hb : acc.bets[i]? = some b) :
    ∃ b', (checkResolutionsStep g now acc bet).bets[i]? = some b' ∧
      b'.marketId = b.marketId ∧
      (b.result ≠ BetResult.pending → b' = b) ∧
      (b'.result = BetResult.pending → b' = b) ∧
      (∀ m, bet.marketId = b.marketId → g bet.marketId = some m →
        (m.status = "resolved" ∨ m.status = "voided") →
        b'.result ≠ BetResult.pending) := by
  cases hg : g bet.marketId with
  | none =>
    refine ⟨b, ?_, rfl, fun _ => rfl, fun _ => rfl, ?_⟩
    · simp only [checkResolutionsStep, hg]
      exact hb
    · intro m _ hgm
      cases hgm
  | some mk =>
    cases hlr : liveResolveOutcome mk bet with
    | none =>
      refine ⟨b, ?_, rfl, fun _ => rfl, fun _ => rfl, ?_⟩
      · simp only [checkResolutionsStep, hg, hlr]
        exact hb
      · intro m _ hgm hterm
        obtain rfl := Option.some.inj hgm
        obtain ⟨rp, hsome⟩ := liveResolveOutcome_terminal_isSome mk bet hterm
        rw [hlr] at hsome
        cases hsome
    | some rp =>
      obtain ⟨res, pnl⟩ := rp
      have hres := liveResolveOutcome_ne_pending mk bet res pnl hlr
      obtain ⟨b', h1, h2, h3, h4, h5⟩ := resolveBet_row acc bet.marketId res pnl now i b hb
      refine ⟨b', ?_, h2, h3, h5 hres, ?_⟩
      · simp only [checkResolutionsStep, hg, hlr]
        exact h1
      · intro m hmid hgm hterm
        by_cases hp : b.result = BetResult.pending
        · rw [h4 hmid.symm hp]
          exact hres
        · rw [h3 hp]
          exact hp

/-- One `checkResolutions` iteration preserves the number of rows. -/
theorem checkResolutionsStep_length (g : ℚ → Option Market) (now : ℚ)
    (acc : Ledger) (bet : BetRow) :
    (checkResolutionsStep g now acc bet).bets.length = acc.bets.length := by
  cases hg : g bet.marketId with
  | none => simp [checkResolutionsStep, hg]
  | some mk =>
    cases hlr : liveResolveOutcome mk bet with
    | none => simp [checkResolutionsStep, hg, hlr]
    | some rp =>
      obtain ⟨res, pnl⟩ := rp
      simp [checkResolutionsStep, hg, hlr, resolveBet_length]

/-- The `checkResolutions` fold preserves the number of rows. -/
theorem checkResolutions_fold_length (g : ℚ → Option Market) (now : ℚ) :
    ∀ (todo : List BetRow) (acc : Ledger),
      (todo.foldl (checkResolutionsStep g now) acc).bets.length = acc.bets.length := by
  intro todo
  induction todo with
  | nil => intro acc; rfl
  | cons t rest ih =>
    intro acc
    rw [List.foldl_cons, ih (checkResolutionsStep g now acc t),
      checkResolutionsStep_length]

/-- The number of rows is unchanged by `checkResolutions`. -/
theorem checkResolutions_length (g : ℚ → Option Market) (now : ℚ) (l : Ledger) :
    (checkResolutions g now l).bets.length = l.bets.length :=
  checkResolutions_fold_length g now (pendingBets l) l

/-- Row-wise behaviour of the whole `checkResolutions` fold: market id is
preserved, terminal rows are untouched, a row still pending was never
touched, and a row whose market (matched via any processed wager) has a
terminal status ends up resolved. -/
theorem checkResolutions_fold_row (g : ℚ → Option Market) (now : ℚ) :
    ∀ (todo : List BetRow) (acc : Ledger) (i : Nat) (b : BetRow),
      acc.bets[i]? = some b →
      ∃ b', (todo.foldl (checkResolutionsStep g now) acc).bets[i]? = some b' ∧
        b'.marketId = b.marketId ∧
        (b.result ≠ BetResult.pending → b' = b) ∧
        (b'.result = BetResult.pending → b' = b) ∧
        (∀ bet ∈ todo, ∀ m, bet.marketId = b.marketId → g bet.marketId = some m →
          (m.status = "resolved" ∨ m.status = "voided") →
          b'.result ≠ BetResult.pending) := by
  intro todo
  induction todo with
  | nil =>
    intro acc i b hb
    exact ⟨b, hb, rfl, fun _ => rfl, fun _ => rfl,
      fun bet hbet => absurd hbet (List.not_mem_nil bet)⟩
  | cons t rest ih =>
    intro acc i b hb
    obtain ⟨b1, hs1, hs2, hs3, hs4, hs5⟩ := checkResolutionsStep_row g now acc t i b hb
    obtain ⟨b', hi1, hi2, hi3, hi4, hi5⟩ :=
      ih (checkResolutionsStep g now acc t) i b1 hs1
    rw [List.foldl_cons]
    refine ⟨b', hi1, hi2.trans hs2, ?_, ?_, ?_⟩
    · intro hnp
      have e1 := hs3 hnp
      have : b1.result ≠ BetResult.pending := by rw [e1]; exact hnp
      exact (hi3 this).trans e1
    · intro hp
      have e1 := hi4 hp
      have : b1.result = BetResult.pending := by rw [← e1]; exact hp
      exact e1.trans (hs4 this)
    · intro bet hbet m hmid hgm hterm
      rcases List.mem_cons.mp hbet with rfl | hrest
      · have hb1 : b1.result ≠ BetResult.pending := hs5 m hmid hgm hterm
        intro hp
        have e := hi4 hp
        rw [e] at hp
        exact hb1 hp
      · exact hi5 bet hrest m (by rw [hmid, ← hs2]) hgm hterm

/-! ## Claim C7: resolution precedes the decision round in the orchestrator -/

/-- C7 amended (orchestrator): in `Orchestrator.cycle` the resolution
check (step 4) runs before the pending lists are read as decision input
(step 6), so no wager whose market already has a terminal status is fed
as pending input to the same cycle's decision. -/
theorem resolution_precedes_decision_input (g : ℚ → Option Market) (now : ℚ)
    (l : Ledger) (b : BetRow)
    (hmem : b ∈ (orchestratorCycleSteps46 g now l).2)
    (m : Market) (hg : g b.marketId = some m) :
    m.status ≠ "resolved" ∧ m.status ≠ "voided" := by
  have hmem' : b ∈ pendingBets (checkResolutions g now l) := hmem
  have hfil := List.mem_filter.mp hmem'
  have hb_mem : b ∈ (checkResolutions g now l).bets := hfil.1
  have hb_pend : b.result = BetResult.pending := by simpa using hfil.2
  obtain ⟨i, hi, hrow⟩ := List.getElem_of_mem hb_mem
  have hrowq : (checkResolutions g now l).bets[i]? = some b := by
    rw [List.getElem?_eq_getElem hi, hrow]
  have hlen : i < l.bets.length := by
    have := checkResolutions_length g now l
    omega
  have hb0 : l.bets[i]? = some l.bets[i] := List.getElem?_eq_getElem hlen
  obtain ⟨b', h1, h2, h3, h4, h5⟩ :=
    checkResolutions_fold_row g now (pendingBets l) l i (l.bets[i]) hb0
  have hfold : (checkResolutions g now l).bets[i]? = some b' := h1
  have hbb : b' = b := by
    rw [hfold] at hrowq
    exact Option.some.inj hrowq
  subst hbb
  have hb0b : b' = l.bets[i] := h4 hb_pend
  have hb0_pend : (l.bets[i]).result = BetResult.pending := by
    rw [← hb0b]
    exact hb_pend
  have hb0_in : l.bets[i] ∈ pendingBets l :=
    List.mem_filter.mpr ⟨List.getElem_mem hlen, by simpa using hb0_pend⟩
  constructor
  · intro hst
    exact h5 (l.bets[i]) hb0_in m rfl (by rw [← hb0b]; exact hg) (Or.inl hst) hb_pend
  · intro hst
    exact h5 (l.bets[i]) hb0_in m rfl (by rw [← hb0b]; exact hg) (Or.inr hst) hb_pend

/-- Witness for C7 (orchestrator): a pending wager surviving into the
decision input has a market that is neither resolved nor voided. -/
theorem resolution_precedes_decision_input_witness :
    mktActive2.status ≠ "resolved" ∧ mktActive2.status ≠ "voided" := by
  refine resolution_precedes_decision_input lookupActive2 0 pendingLedger2 pendRow2 ?_
    mktActive2 ?_
  · show pendRow2 ∈ pendingBets (checkResolutions lookupActive2 0 pendingLedger2)
    simp [checkResolutions, pendingBets, pendingLedger2, pendRow2,
      checkResolutionsStep, lookupActive2, mktActive2, liveResolveOutcome]
  · simp [lookupActive2, pendRow2]

/-- Counterexample to C7 as stated: in the legacy `Agent.cycle` the
pending list is read BEFORE `checkResolutions` runs, so a wager that this
very cycle resolves (to `won` here) is nevertheless fed as pending input
to the same cycle's decision. -/
theorem agent_cycle_feeds_resolved_wager :
    pendRow9 ∈ (agentCycleSteps45 lookupRes9 0 pendingLedger9).1 ∧
    ((agentCycleSteps45 lookupRes9 0 pendingLedger9).2.bets.map (fun b => b.result)) =
      [BetResult.won] := by
  constructor
  · simp [agentCycleSteps45, pendingBets, pendingLedger9, pendRow9]
  · simp [agentCycleSteps45, checkResolutions, pendingBets, pendingLedger9, pendRow9,
      checkResolutionsStep, lookupRes9, mktRes9, liveResolveOutcome, resolveBet]

/-! ## Helper lemmas about the batched decision demultiplexer -/

/-- Validating an empty raw action list yields an empty action list. -/
theorem validateActions_nil (markets : List Market) (balance : ℚ)
    (config : AgentConfig) : validateActions [] markets balance config = [] := rfl

/-- Lookup in a keyed-assignment object built from a list by a key
function: when the element's key is unique in the list, the lookup
returns that element's value. -/
theorem jsLookup_map_unique {β : Type} (key : AgentCtx → String) (val : AgentCtx → β) :
    ∀ (agents : List AgentCtx) (a : AgentCtx), a ∈ agents →
      (∀ b ∈ agents, key b = key a → b = a) →
      jsLookup (agents.map fun x => (key x, val x)) (key a) = some (val a) := by
  intro agents
  induction agents with
  | nil => intro a ha _; cases ha
  | cons c t ih =>
    intro a ha huniq
    unfold jsLookup
    rw [List.map_cons, List.reverse_cons, List.find?_append]
    by_cases hat : a ∈ t
    · have ih2 := ih a hat (fun b hb hn => huniq b (List.mem_cons_of_mem c hb) hn)
      unfold jsLookup at ih2
      cases hf : (t.map fun x => (key x, val x)).reverse.find?
          (fun p => decide (p.1 = key a)) with
      | none =>
        rw [hf] at ih2
        simp at ih2
      | some pr =>
        rw [hf] at ih2
        have hor : (some pr).or ([(key c, val c)].find? (fun p => decide (p.1 = key a))) =
            some pr := rfl
        rw [hor]
        exact ih2
    · have hac : a = c := by
        rcases List.mem_cons.mp ha with h | h
        · exact h
        · exact absurd h hat
      subst hac
      have hnone : (t.map fun x => (key x, val x)).reverse.find?
          (fun p => decide (p.1 = key a)) = none := by
        rw [List.find?_eq_none]
        intro x hx
        rw [List.mem_reverse, List.mem_map] at hx
        obtain ⟨b, hb, rfl⟩ := hx
        simp only [decide_eq_true_eq]
        intro hkey
        have hba := huniq b (List.mem_cons_of_mem a hb) hkey
        subst hba
        exact hat hb
      rw [hnone]
      have hor : (Option.or none ([(key a, val a)].find? (fun p => decide (p.1 = key a)))) =
          [(key a, val a)].find? (fun p => decide (p.1 = key a)) := rfl
      rw [hor]
      simp [List.find?]

/-- Lookup of one agent's entry in the `thinkAll` demultiplexer output:
with the agent's name unique among the configured agents, the entry is
that agent's defaulted-and-validated result. -/
theorem thinkAllDemux_lookup (result : String → Option OracleEntry)
    (markets : List Market) (agents : List AgentCtx) (a : AgentCtx)
    (ha : a ∈ agents)
    (huniq : ∀ b ∈ agents, b.config.name = a.config.name → b = a) :
    jsLookup (thinkAllDemux result agents markets) a.config.name =
      some { actions := validateActions (((result a.config.name).bind (·.actions)).getD [])
               markets a.balance a.config,
             reasoning := ((result a.config.name).bind (·.reasoning)).getD "" } := by
  have h := jsLookup_map_unique (fun x => x.config.name)
    (fun x => ({ actions := validateActions (((result x.config.name).bind (·.actions)).getD [])
                     markets x.balance x.config,
                 reasoning := ((result x.config.name).bind (·.reasoning)).getD "" } : ThinkResult))
    agents a ha huniq
  exact h

/-! ## Claim C8: missing oracle entries degrade gracefully per agent -/

/-- C8: for every configured agent (identified by its unique name), if
the oracle response holds no entry for that agent, the `thinkAll`
demultiplexer still returns an entry for it with an empty action list and
empty reasoning; an agent that does have an entry gets its raw actions
validated with its own balance and config, and its reasoning string. -/
theorem thinkAll_missing_entry_defaults (result : String → Option OracleEntry)
    (agents : List AgentCtx) (markets : List Market) (a : AgentCtx)
    (ha : a ∈ agents)
    (huniq : ∀ b ∈ agents, b.config.name = a.config.name → b = a) :
    (result a.config.name = none →
      jsLookup (thinkAllDemux result agents markets) a.config.name =
        some { actions := [], reasoning := "" })
  ∧ (∀ e, result a.config.name = some e →
      jsLookup (thinkAllDemux result agents markets) a.config.name =
        some { actions := validateActions (e.actions.getD []) markets a.balance a.config,
               reasoning := e.reasoning.getD "" }) := by
  have hl := thinkAllDemux_lookup result markets agents a ha huniq
  constructor
  · intro hnone
    rw [hl, hnone]
    rfl
  · intro e he
    rw [hl, he]
    rfl

/-- Witness for C8: the oracle answers for agent A only; agent B gets an
empty entry, agent A's proposal is validated normally. -/
theorem thinkAll_missing_entry_defaults_witness :
    jsLookup (thinkAllDemux oracleRes0 [ctxA, ctxB] [mkt5]) ctxB.config.name =
      some { actions := [], reasoning := "" } ∧
    jsLookup (thinkAllDemux oracleRes0 [ctxA, ctxB] [mkt5]) ctxA.config.name =
      some { actions := validateActions [betAct (3 / 2)] [mkt5] ctxA.balance ctxA.config,
             reasoning := "thinking" } := by
  have huB : ∀ b ∈ [ctxA, ctxB], b.config.name = ctxB.config.name → b = ctxB := by
    intro b hb hn
    rcases List.mem_cons.mp hb with rfl | hb2
    · exact absurd hn (by simp [ctxA, ctxB, cfgA, cfgB])
    · rcases List.mem_cons.mp hb2 with rfl | h
      · rfl
      · cases h
  have huA : ∀ b ∈ [ctxA, ctxB], b.config.name = ctxA.config.name → b = ctxA := by
    intro b hb hn
    rcases List.mem_cons.mp hb with rfl | hb2
    · rfl
    · rcases List.mem_cons.mp hb2 with rfl | h
      · exact absurd hn (by simp [ctxA, ctxB, cfgA, cfgB])
      · cases h
  constructor
  · exact (thinkAll_missing_entry_defaults oracleRes0 [ctxA, ctxB] [mkt5] ctxB
      (by simp) huB).1 (by simp [oracleRes0, ctxB, cfgB])
  · exact (thinkAll_missing_entry_defaults oracleRes0 [ctxA, ctxB] [mkt5] ctxA
      (by simp) huA).2 entryA (by simp [oracleRes0, ctxA, cfgA])

end Nearcast
